import Mathlib

/-!
Verification of the content-enrichment job pipeline (`demoGenerate` in
`src/inngest/functions.ts`).

The pipeline has three stages:
1. URL extraction: `prompt.match(URL_REGEX) ?? []` with
   `URL_REGEX = /https?:\/\/[^\s]+/g`.
2. Parallel scrape: `Promise.all(urls.map(u => firecrawl.scrape(u, ...)))`
   where each resolved result contributes `result.markdown || ""`, then
   `results.filter(Boolean).join("\n\n")`.
3. Generation: the final prompt is
   `scrapeContent ? "Context:\n" + scrapeContent + "\n\nQuestion:\n" + prompt : prompt`.

Machine integers play no role; the embedding works over lists of characters
and strings. The scrape and generation calls are external and are modelled by
oracle functions passed in as parameters: a scrape call either throws
(`Except.error ()`) or resolves with an optional markdown string
(`Except.ok (md : Option String)`), matching the interface
`scrape(url, options) -> \x7b markdown?: string \x7d` treated as fallible.
-/

namespace Polaris

/-- Whitespace per the JavaScript regular-expression class `\s`:
tab, line feed, vertical tab, form feed, carriage return, space, NBSP,
U+1680, U+2000..U+200A, U+2028, U+2029, U+202F, U+205F, U+3000, U+FEFF. -/
def isJsSpace (c : Char) : Bool :=
  let n := c.toNat
  n == 0x9 || n == 0xA || n == 0xB || n == 0xC || n == 0xD || n == 0x20 ||
  n == 0xA0 || n == 0x1680 || (0x2000 ≤ n && n ≤ 0x200A) || n == 0x2028 ||
  n == 0x2029 || n == 0x202F || n == 0x205F || n == 0x3000 || n == 0xFEFF

/-- The characters of the literal scheme `https://`. -/
def schemeS : List Char := ['h', 't', 't', 'p', 's', ':', '/', '/']

/-- The characters of the literal scheme `http://`. -/
def schemeH : List Char := ['h', 't', 't', 'p', ':', '/', '/']

/-- Strip a literal character sequence from the front of a list; `none` when
the list does not start with it. -/
def stripPre : List Char → List Char → Option (List Char)
  | [], s => some s
  | _ :: _, [] => none
  | p :: ps, c :: cs => if c = p then stripPre ps cs else none

/-- One attempt of the regex `https?:\/\/[^\s]+` anchored at the head of `s`
(the alternative with `s` is preferred, as the greedy `s?` is). On success,
returns the matched token and the remaining characters after it. The token is
the scheme followed by the maximal nonempty run of non-whitespace characters. -/
def urlMatchAt (s : List Char) : Option (List Char × List Char) :=
  match stripPre schemeS s with
  | some r =>
      if r.takeWhile (fun c => !isJsSpace c) = [] then none
      else some (schemeS ++ r.takeWhile (fun c => !isJsSpace c),
        r.dropWhile (fun c => !isJsSpace c))
  | none =>
      match stripPre schemeH s with
      | some r =>
          if r.takeWhile (fun c => !isJsSpace c) = [] then none
          else some (schemeH ++ r.takeWhile (fun c => !isJsSpace c),
            r.dropWhile (fun c => !isJsSpace c))
      | none => none

/-- Global scan of `String.prototype.match` with a `g` regex: try a match at
the current position; on success emit it and continue after the match, else
advance one character. `fuel` bounds the recursion and any value at least the
length of `s` gives the same answer. -/
def scanAux : Nat → List Char → List (List Char)
  | 0, _ => []
  | _ + 1, [] => []
  | fuel + 1, c :: cs =>
    match urlMatchAt (c :: cs) with
    | some (tok, rest) => tok :: scanAux fuel rest
    | none => scanAux fuel cs

/-- All matches of `URL_REGEX` in `s`, leftmost first, non-overlapping. -/
def matchScan (s : List Char) : List (List Char) :=
  scanAux s.length s

/-- Step 1 of `demoGenerate`: `prompt.match(URL_REGEX) ?? []`. -/
def extractUrls (p : String) : List String :=
  (matchScan p.data).map (fun cs => String.mk cs)

/-- Aggregation inside step 2: `results.filter(Boolean).join("\n\n")`.
`Boolean(r)` is false exactly for the empty string. -/
def aggregate (results : List String) : String :=
  String.intercalate "\n\n" (results.filter (fun r => r != ""))

/-- The per-URL contribution inside the `Promise.all` map:
`result.markdown || ""` once the scrape call has resolved. A missing or empty
markdown field contributes the empty string. -/
def scrapeOne (outcome : String → Except Unit (Option String)) (u : String) :
    Except Unit String :=
  (outcome u).map (fun md => md.getD "")

/-- The `Promise.all` over the mapped scrape calls: if any call throws the
whole conjunction rejects, otherwise it resolves with the list of per-URL
contributions in order. -/
def scrapeResults (outcome : String → Except Unit (Option String)) :
    List String → Except Unit (List String)
  | [] => Except.ok []
  | u :: rest =>
    match scrapeOne outcome u with
    | Except.error e => Except.error e
    | Except.ok r =>
      match scrapeResults outcome rest with
      | Except.error e => Except.error e
      | Except.ok rs => Except.ok (r :: rs)

/-- Step 2 of `demoGenerate` (`scrape-urls`): scrape every URL, then filter
out empty results and join with blank lines. -/
def scrapeStage (outcome : String → Except Unit (Option String))
    (urls : List String) : Except Unit String :=
  (scrapeResults outcome urls).map aggregate

/-- Number of `firecrawl.scrape` calls issued by step 2: the code maps one
scrape call over each element of `urls`. -/
def scrapeCalls (urls : List String) : Nat :=
  urls.length

/-- Final prompt construction: the ternary
`scrapeContent ? "Context:\n" + scrapeContent + "\n\nQuestion:\n" + prompt : prompt`;
a JavaScript string is falsy exactly when it is empty. -/
def mkFinalPrompt (scrapeContent prompt : String) : String :=
  if scrapeContent = "" then prompt
  else "Context:\n" ++ scrapeContent ++ "\n\nQuestion:\n" ++ prompt

/-- The prompt handed to the generation call, as a function of the scrape
oracle and the trigger prompt: extraction, then the scrape stage, then the
composition rule. Errors of the scrape stage propagate. -/
def finalPromptOf (outcome : String → Except Unit (Option String))
    (p : String) : Except Unit String :=
  (scrapeStage outcome (extractUrls p)).map (fun ctx => mkFinalPrompt ctx p)

/-- The string a URL contributes once its scrape call resolved; an unresolved
(throwing) call is mapped to the empty string here only to make the function
total, the stage itself never reads this default. -/
def resolvedContribution (outcome : String → Except Unit (Option String))
    (u : String) : String :=
  match outcome u with
  | Except.ok md => md.getD ""
  | Except.error _ => ""

/-! ### Declarative characterization of a regex match -/

/-- Declarative reading of one match of `https?:\/\/[^\s]+` at the head of
`s`: the token is a scheme followed by a nonempty all-non-whitespace run, and
the run is maximal because the remainder is empty or starts with whitespace. -/
def MatchedAt (s tok rest : List Char) : Prop :=
  s = tok ++ rest ∧
  (∃ run, (tok = schemeS ++ run ∨ tok = schemeH ++ run) ∧ run ≠ [] ∧
    ∀ c ∈ run, isJsSpace c = false) ∧
  (rest = [] ∨ ∃ d rest₂, rest = d :: rest₂ ∧ isJsSpace d = true)

/-- Declarative global scan: leftmost matches, non-overlapping, in encounter
order, no deduplication; positions with no match are skipped. -/
inductive UrlScan : List Char → List (List Char) → Prop
  | nil : UrlScan [] []
  | cons_match {c : Char} {cs tok rest : List Char} {toks : List (List Char)} :
      MatchedAt (c :: cs) tok rest → UrlScan rest toks →
      UrlScan (c :: cs) (tok :: toks)
  | cons_skip {c : Char} {cs : List Char} {toks : List (List Char)} :
      (∀ tok rest, ¬ MatchedAt (c :: cs) tok rest) → UrlScan cs toks →
      UrlScan (c :: cs) toks

/-! ### Basic lemmas about prefixes and the single-position match -/

theorem stripPre_eq_some {pre s r : List Char} (h : stripPre pre s = some r) :
    s = pre ++ r := by
  induction pre generalizing s with
  | nil => simpa [stripPre] using h
  | cons p ps ih =>
      cases s with
      | nil => simp [stripPre] at h
      | cons c cs =>
          by_cases hc : c = p
          · simp [stripPre, hc] at h
            simpa [hc] using congrArg (List.cons p) (ih h)
          · simp [stripPre, hc] at h

theorem stripPre_append (pre r : List Char) :
    stripPre pre (pre ++ r) = some r := by
  induction pre with
  | nil => simp [stripPre]
  | cons p ps ih => simp [stripPre, ih]

theorem stripPre_schemeS_of_schemeH (x : List Char) :
    stripPre schemeS (schemeH ++ x) = none := rfl

theorem dropWhile_head_false {p : Char → Bool} {l : List Char} {d : Char}
    {r : List Char} (h : l.dropWhile p = d :: r) : p d = false := by
  induction l with
  | nil => simp [List.dropWhile] at h
  | cons a as ih =>
      by_cases hp : p a
      · rw [List.dropWhile_cons_of_pos hp] at h
        exact ih h
      · rw [List.dropWhile_cons_of_neg hp] at h
        simp only [List.cons.injEq] at h
        obtain ⟨rfl, rfl⟩ := h
        simpa using hp

theorem matchedAt_nil (tok rest : List Char) : ¬ MatchedAt [] tok rest := by
  rintro ⟨hs, ⟨run, hsch, -, -⟩, -⟩
  rcases hsch with rfl | rfl <;> simp [schemeS, schemeH] at hs

/-- The computed match is a declarative match. -/
theorem urlMatchAt_sound {s tok rest : List Char}
    (h : urlMatchAt s = some (tok, rest)) : MatchedAt s tok rest := by
  unfold urlMatchAt at h
  cases hS : stripPre schemeS s with
  | some r =>
      simp only [hS] at h
      split at h
      · simp at h
      · rename_i hne
        simp only [Option.some.injEq, Prod.mk.injEq] at h
        obtain ⟨htok, hrest⟩ := h
        refine ⟨?_, ⟨r.takeWhile (fun c => !isJsSpace c), Or.inl htok.symm, hne, ?_⟩, ?_⟩
        · rw [stripPre_eq_some hS, ← htok, ← hrest, List.append_assoc,
            List.takeWhile_append_dropWhile]
        · intro c hc
          simpa using List.mem_takeWhile_imp hc
        · rw [← hrest]
          cases hd : r.dropWhile (fun c => !isJsSpace c) with
          | nil => exact Or.inl rfl
          | cons d rest₂ =>
              refine Or.inr ⟨d, rest₂, rfl, ?_⟩
              simpa using dropWhile_head_false hd
  | none =>
      simp only [hS] at h
      cases hH : stripPre schemeH s with
      | some r =>
          simp only [hH] at h
          split at h
          · simp at h
          · rename_i hne
            simp only [Option.some.injEq, Prod.mk.injEq] at h
            obtain ⟨htok, hrest⟩ := h
            refine ⟨?_, ⟨r.takeWhile (fun c => !isJsSpace c), Or.inr htok.symm, hne, ?_⟩, ?_⟩
            · rw [stripPre_eq_some hH, ← htok, ← hrest, List.append_assoc,
                List.takeWhile_append_dropWhile]
            · intro c hc
              simpa using List.mem_takeWhile_imp hc
            · rw [← hrest]
              cases hd : r.dropWhile (fun c => !isJsSpace c) with
              | nil => exact Or.inl rfl
              | cons d rest₂ =>
                  refine Or.inr ⟨d, rest₂, rfl, ?_⟩
                  simpa using dropWhile_head_false hd
      | none =>
          simp only [hH] at h
          exact Option.noConfusion h

/-- The maximal non-whitespace run is recovered by `takeWhile`. -/
theorem run_eq_takeWhile {run rest : List Char}
    (hrun : ∀ c ∈ run, isJsSpace c = false)
    (hrest : rest = [] ∨ ∃ d rest₂, rest = d :: rest₂ ∧ isJsSpace d = true) :
    (run ++ rest).takeWhile (fun c => !isJsSpace c) = run := by
  rw [List.takeWhile_append_of_pos (by intro a ha; simp [hrun a ha])]
  rcases hrest with rfl | ⟨d, rest₂, rfl, hd⟩
  · simp
  · simp [hd]

/-- A declarative match is found by the computed matcher. -/
theorem urlMatchAt_of_matched {s tok rest : List Char}
    (h : MatchedAt s tok rest) :
    ∃ tok₂ rest₂, urlMatchAt s = some (tok₂, rest₂) := by
  obtain ⟨hs, ⟨run, hsch, hne, hws⟩, hrest⟩ := h
  have htw := run_eq_takeWhile hws hrest
  rcases hsch with rfl | rfl
  · have hS : stripPre schemeS s = some (run ++ rest) := by
      rw [hs, List.append_assoc]; exact stripPre_append _ _
    refine ⟨schemeS ++ run, (run ++ rest).dropWhile (fun c => !isJsSpace c), ?_⟩
    unfold urlMatchAt
    simp only [hS, htw]
    simp [hne]
  · have hs2 : s = schemeH ++ (run ++ rest) := by rw [hs, List.append_assoc]
    have hS : stripPre schemeS s = none := by
      rw [hs2]; exact stripPre_schemeS_of_schemeH _
    have hH : stripPre schemeH s = some (run ++ rest) := by
      rw [hs2]; exact stripPre_append _ _
    refine ⟨schemeH ++ run, (run ++ rest).dropWhile (fun c => !isJsSpace c), ?_⟩
    unfold urlMatchAt
    simp only [hS, hH, htw]
    simp [hne]

/-- A computed match consumes at least one character. -/
theorem urlMatchAt_rest_length {s tok rest : List Char}
    (h : urlMatchAt s = some (tok, rest)) : rest.length < s.length := by
  obtain ⟨hs, ⟨run, hsch, -, -⟩, -⟩ := urlMatchAt_sound h
  subst hs
  rcases hsch with rfl | rfl <;>
    simp [schemeS, schemeH, List.length_append] <;> omega

/-- Any fuel at least the length of the input gives the same scan. -/
theorem scanAux_agree : ∀ (f₁ f₂ : Nat) (s : List Char),
    s.length ≤ f₁ → s.length ≤ f₂ → scanAux f₁ s = scanAux f₂ s := by
  intro f₁
  induction f₁ with
  | zero =>
      intro f₂ s h₁ h₂
      have hs : s = [] := List.length_eq_zero.mp (Nat.le_zero.mp h₁)
      subst hs
      cases f₂ <;> rfl
  | succ f ih =>
      intro f₂ s h₁ h₂
      cases s with
      | nil => cases f₂ <;> rfl
      | cons c cs =>
          cases f₂ with
          | zero => simp at h₂
          | succ f₂ =>
              simp only [List.length_cons] at h₁ h₂
              simp only [scanAux]
              cases hm : urlMatchAt (c :: cs) with
              | some pr =>
                  obtain ⟨tok, rest⟩ := pr
                  have hlt := urlMatchAt_rest_length hm
                  simp only [List.length_cons] at hlt
                  exact congrArg (tok :: ·) (ih f₂ rest (by omega) (by omega))
              | none => exact ih f₂ cs (by omega) (by omega)

theorem matchScan_cons (c : Char) (cs : List Char) :
    matchScan (c :: cs) =
      match urlMatchAt (c :: cs) with
      | some (tok, rest) => tok :: matchScan rest
      | none => matchScan cs := by
  unfold matchScan
  simp only [List.length_cons, scanAux]
  cases hm : urlMatchAt (c :: cs) with
  | some pr =>
      obtain ⟨tok, rest⟩ := pr
      have hlt := urlMatchAt_rest_length hm
      simp only [List.length_cons] at hlt
      exact congrArg (tok :: ·)
        (scanAux_agree cs.length rest.length rest (by omega) le_rfl)
  | none => rfl

/-- The computed scan satisfies the declarative scan relation. -/
theorem urlScan_scanAux : ∀ (f : Nat) (s : List Char), s.length ≤ f →
    UrlScan s (scanAux f s) := by
  intro f
  induction f with
  | zero =>
      intro s h
      have hs : s = [] := List.length_eq_zero.mp (Nat.le_zero.mp h)
      subst hs
      exact UrlScan.nil
  | succ f ih =>
      intro s h
      cases s with
      | nil => exact UrlScan.nil
      | cons c cs =>
          simp only [List.length_cons] at h
          cases hm : urlMatchAt (c :: cs) with
          | some pr =>
              obtain ⟨tok, rest⟩ := pr
              have hlt := urlMatchAt_rest_length hm
              simp only [List.length_cons] at hlt
              have hrec := ih rest (by omega)
              have hstep := UrlScan.cons_match (urlMatchAt_sound hm) hrec
              simpa [scanAux, hm] using hstep
          | none =>
              have hrec := ih cs (by omega)
              have hno : ∀ tok rest, ¬ MatchedAt (c :: cs) tok rest := by
                intro tok rest hmm
                obtain ⟨tok₂, rest₂, heq⟩ := urlMatchAt_of_matched hmm
                rw [hm] at heq
                exact Option.noConfusion heq
              have hstep := UrlScan.cons_skip hno hrec
              simpa [scanAux, hm] using hstep

/-- At one position an anchored match is unique. -/
theorem matchedAt_unique {s tok₁ rest₁ tok₂ rest₂ : List Char}
    (h₁ : MatchedAt s tok₁ rest₁) (h₂ : MatchedAt s tok₂ rest₂) :
    tok₁ = tok₂ ∧ rest₁ = rest₂ := by
  obtain ⟨hs₁, ⟨run₁, hsch₁, hne₁, hws₁⟩, hrest₁⟩ := h₁
  obtain ⟨hs₂, ⟨run₂, hsch₂, hne₂, hws₂⟩, hrest₂⟩ := h₂
  have htw₁ := run_eq_takeWhile hws₁ hrest₁
  have htw₂ := run_eq_takeWhile hws₂ hrest₂
  rcases hsch₁ with rfl | rfl <;> rcases hsch₂ with rfl | rfl
  · have hkey : schemeS ++ (run₁ ++ rest₁) = schemeS ++ (run₂ ++ rest₂) := by
      rw [← List.append_assoc, ← List.append_assoc, ← hs₁, ← hs₂]
    have hbody := List.append_cancel_left hkey
    have hruns : run₁ = run₂ := by rw [← htw₁, ← htw₂, hbody]
    subst hruns
    rw [hbody] at htw₁
    have hrests : rest₁ = rest₂ := List.append_cancel_left hbody
    exact ⟨rfl, hrests⟩
  · exfalso
    have hkey : schemeS ++ (run₁ ++ rest₁) = schemeH ++ (run₂ ++ rest₂) := by
      rw [← List.append_assoc, ← List.append_assoc, ← hs₁, ← hs₂]
    simp only [schemeS, schemeH, List.cons_append, List.nil_append,
      List.cons.injEq] at hkey
    exact absurd hkey.2.2.2.2.1 (by decide)
  · exfalso
    have hkey : schemeH ++ (run₁ ++ rest₁) = schemeS ++ (run₂ ++ rest₂) := by
      rw [← List.append_assoc, ← List.append_assoc, ← hs₁, ← hs₂]
    simp only [schemeS, schemeH, List.cons_append, List.nil_append,
      List.cons.injEq] at hkey
    exact absurd hkey.2.2.2.2.1 (by decide)
  · have hkey : schemeH ++ (run₁ ++ rest₁) = schemeH ++ (run₂ ++ rest₂) := by
      rw [← List.append_assoc, ← List.append_assoc, ← hs₁, ← hs₂]
    have hbody := List.append_cancel_left hkey
    have hruns : run₁ = run₂ := by rw [← htw₁, ← htw₂, hbody]
    subst hruns
    have hrests : rest₁ = rest₂ := List.append_cancel_left hbody
    exact ⟨rfl, hrests⟩

/-- The declarative scan relation is functional. -/
theorem urlScan_unique {s : List Char} {l₁ l₂ : List (List Char)}
    (h₁ : UrlScan s l₁) (h₂ : UrlScan s l₂) : l₁ = l₂ := by
  induction h₁ generalizing l₂ with
  | nil =>
      cases h₂ with
      | nil => rfl
  | cons_match hm htl ih =>
      cases h₂ with
      | cons_match hm₂ htl₂ =>
          obtain ⟨htok, hrest⟩ := matchedAt_unique hm hm₂
          subst htok
          subst hrest
          rw [ih htl₂]
      | cons_skip hno _ => exact absurd hm (hno _ _)
  | cons_skip hno htl ih =>
      cases h₂ with
      | cons_match hm₂ _ => exact absurd hm₂ (hno _ _)
      | cons_skip _ htl₂ => exact ih htl₂

/-! ### Claims about URL extraction -/

/-- C4: URL extraction returns exactly the sequence of regex matches, in
encounter order, as characterized by the declarative scan relation `UrlScan`
(leftmost maximal tokens, non-overlapping, no deduplication, empty when
nothing matches); the function is total, so absence of matches is not an
error. -/
theorem extractUrls_contract (p : String) :
    UrlScan p.data ((extractUrls p).map String.data) ∧
    ∀ l, UrlScan p.data l → l = (extractUrls p).map String.data := by
  have hmap : (extractUrls p).map String.data = matchScan p.data := by
    unfold extractUrls
    rw [List.map_map]
    have hid : (String.data ∘ fun cs => String.mk cs) = id := funext fun cs => rfl
    rw [hid, List.map_id]
  constructor
  · rw [hmap]
    exact urlScan_scanAux _ _ le_rfl
  · intro l hl
    rw [hmap]
    exact urlScan_unique hl (urlScan_scanAux p.data.length p.data le_rfl)

/-- Witness for C4: the hypothesis of the uniqueness part is discharged with
the derivation produced by the first part, at a concrete prompt. -/
theorem extractUrls_contract_witness :
    (extractUrls "See https://a.test now").map String.data =
      (extractUrls "See https://a.test now").map String.data :=
  (extractUrls_contract "See https://a.test now").2 _
    (extractUrls_contract "See https://a.test now").1

/-- C6: the spec example prompt yields exactly its two URLs in order. -/
theorem extractUrls_example :
    extractUrls "See https://a.test and https://b.test now" =
      ["https://a.test", "https://b.test"] := by
  decide

theorem schemeS_no_space : ∀ c ∈ schemeS, isJsSpace c = false := by decide

theorem schemeH_no_space : ∀ c ∈ schemeH, isJsSpace c = false := by decide

/-- Shape of every token emitted by the scan: a scheme followed by a nonempty
non-whitespace run, and an occurrence inside the scanned list. -/
theorem scanAux_tokens : ∀ (f : Nat) (s : List Char), s.length ≤ f →
    ∀ t ∈ scanAux f s,
      (∃ run, (t = schemeS ++ run ∨ t = schemeH ++ run) ∧ run ≠ [] ∧
        ∀ c ∈ run, isJsSpace c = false) ∧
      ∃ l r, s = l ++ t ++ r := by
  intro f
  induction f with
  | zero =>
      intro s h t ht
      simp [scanAux] at ht
  | succ f ih =>
      intro s h t ht
      cases s with
      | nil => simp [scanAux] at ht
      | cons c cs =>
          simp only [List.length_cons] at h
          cases hm : urlMatchAt (c :: cs) with
          | some pr =>
              obtain ⟨tok, rest⟩ := pr
              have hlt := urlMatchAt_rest_length hm
              simp only [List.length_cons] at hlt
              obtain ⟨hs, hrun, -⟩ := urlMatchAt_sound hm
              simp only [scanAux, hm, List.mem_cons] at ht
              rcases ht with rfl | ht
              · exact ⟨hrun, [], rest, by simpa using hs⟩
              · obtain ⟨hr, l, r, hlr⟩ := ih rest (by omega) t ht
                refine ⟨hr, tok ++ l, r, ?_⟩
                rw [hs, hlr]
                simp [List.append_assoc]
          | none =>
              simp only [scanAux, hm] at ht
              obtain ⟨hr, l, r, hlr⟩ := ih cs (by omega) t ht
              refine ⟨hr, c :: l, r, ?_⟩
              rw [hlr]
              simp

/-- C9: every extracted element starts with `http://` or `https://`, contains
no whitespace character, and occurs as a substring of the prompt. -/
theorem extractUrls_elems (p : String) :
    ∀ t ∈ extractUrls p,
      ((∃ r, t.data = schemeS ++ r) ∨ (∃ r, t.data = schemeH ++ r)) ∧
      (∀ c ∈ t.data, isJsSpace c = false) ∧
      (∃ l r, p.data = l ++ t.data ++ r) := by
  intro t ht
  unfold extractUrls at ht
  obtain ⟨ts, hts, rfl⟩ := List.mem_map.mp ht
  obtain ⟨⟨run, hsch, hne, hws⟩, l, r, hlr⟩ :=
    scanAux_tokens p.data.length p.data le_rfl ts hts
  refine ⟨?_, ?_, ⟨l, r, hlr⟩⟩
  · rcases hsch with h1 | h1
    · exact Or.inl ⟨run, h1⟩
    · exact Or.inr ⟨run, h1⟩
  · intro c hc
    rcases hsch with h1 | h1 <;> rw [h1] at hc <;>
      rcases List.mem_append.mp hc with hc₂ | hc₂
    · exact schemeS_no_space c hc₂
    · exact hws c hc₂
    · exact schemeH_no_space c hc₂
    · exact hws c hc₂

/-- Witness for C9 on the token extracted from a concrete prompt. -/
theorem extractUrls_elems_witness :
    ((∃ r, (String.data "https://a.test") = schemeS ++ r) ∨
      (∃ r, (String.data "https://a.test") = schemeH ++ r)) ∧
    (∀ c ∈ (String.data "https://a.test"), isJsSpace c = false) ∧
    (∃ l r, (String.data "See https://a.test now") =
      l ++ (String.data "https://a.test") ++ r) :=
  extractUrls_elems "See https://a.test now" "https://a.test" (by decide)

theorem scanAux_nil_of_noMatch : ∀ (f : Nat) (s : List Char), s.length ≤ f →
    (∀ i tok rest, ¬ MatchedAt (s.drop i) tok rest) → scanAux f s = [] := by
  intro f
  induction f with
  | zero => intro s _ _; rfl
  | succ f ih =>
      intro s h hno
      cases s with
      | nil => rfl
      | cons c cs =>
          simp only [List.length_cons] at h
          cases hm : urlMatchAt (c :: cs) with
          | some pr =>
              obtain ⟨tok, rest⟩ := pr
              exact absurd (urlMatchAt_sound hm) (by simpa using hno 0 tok rest)
          | none =>
              have hrec := ih cs (by omega) (fun i tok rest => by
                simpa [List.drop_succ_cons] using hno (i + 1) tok rest)
              simpa [scanAux, hm] using hrec

theorem noMatch_of_scanAux_nil : ∀ (f : Nat) (s : List Char), s.length ≤ f →
    scanAux f s = [] → ∀ i tok rest, ¬ MatchedAt (s.drop i) tok rest := by
  intro f
  induction f with
  | zero =>
      intro s h _ i tok rest
      have hs : s = [] := List.length_eq_zero.mp (Nat.le_zero.mp h)
      subst hs
      simpa using matchedAt_nil tok rest
  | succ f ih =>
      intro s h hnil i tok rest
      cases s with
      | nil => simpa using matchedAt_nil tok rest
      | cons c cs =>
          simp only [List.length_cons] at h
          cases hm : urlMatchAt (c :: cs) with
          | some pr =>
              obtain ⟨tok₂, rest₂⟩ := pr
              simp [scanAux, hm] at hnil
          | none =>
              have hcs : scanAux f cs = [] := by simpa [scanAux, hm] using hnil
              cases i with
              | zero =>
                  intro hmm
                  obtain ⟨a, b, heq⟩ := urlMatchAt_of_matched (by simpa using hmm)
                  rw [hm] at heq
                  exact Option.noConfusion heq
              | succ i =>
                  simpa [List.drop_succ_cons] using ih cs (by omega) hcs i tok rest

/-- C5: a prompt with no URL-shaped substring extracts the empty sequence,
issues zero scrape calls, and the scrape stage resolves with the empty
aggregated context. -/
theorem noUrl_pipeline (p : String)
    (outcome : String → Except Unit (Option String))
    (h : ∀ i tok rest, ¬ MatchedAt (p.data.drop i) tok rest) :
    extractUrls p = [] ∧ scrapeCalls (extractUrls p) = 0 ∧
      scrapeStage outcome (extractUrls p) = Except.ok "" := by
  have hnil : matchScan p.data = [] :=
    scanAux_nil_of_noMatch p.data.length p.data le_rfl h
  have hurls : extractUrls p = [] := by simp [extractUrls, hnil]
  refine ⟨hurls, by simp [scrapeCalls, hurls], ?_⟩
  rw [hurls]
  rfl

/-- Witness for C5 at a concrete URL-free prompt. -/
theorem noUrl_pipeline_witness :
    extractUrls "a plain question" = [] ∧
    scrapeCalls (extractUrls "a plain question") = 0 ∧
    scrapeStage (fun _ => Except.ok none) (extractUrls "a plain question") =
      Except.ok "" :=
  noUrl_pipeline "a plain question" (fun _ => Except.ok none)
    (noMatch_of_scanAux_nil (String.data "a plain question").length
      (String.data "a plain question") le_rfl (by decide))

/-! ### Claims about the composition rule -/

/-- C2: the final prompt is `"Context:\n<ctx>\n\nQuestion:\n<prompt>"` when
the aggregated context is non-empty, and the original prompt verbatim when it
is empty. -/
theorem finalPrompt_composition (prompt ctx : String) :
    (ctx ≠ "" →
      mkFinalPrompt ctx prompt =
        "Context:\n" ++ ctx ++ "\n\nQuestion:\n" ++ prompt) ∧
    (ctx = "" → mkFinalPrompt ctx prompt = prompt) := by
  refine ⟨fun h => ?_, fun h => ?_⟩ <;> simp [mkFinalPrompt, h]

/-- Witness for C2 at the inputs of the spec example: context `"X"`,
prompt `"Q"`. -/
theorem finalPrompt_composition_witness :
    mkFinalPrompt "X" "Q" = "Context:\nX\n\nQuestion:\nQ" := by
  rw [(finalPrompt_composition "Q" "X").1 (by decide)]
  decide

/-- C7: prompt composition is a pure, deterministic function of the pair
(original prompt, aggregated context). -/
theorem finalPrompt_deterministic (c₁ c₂ p₁ p₂ : String)
    (hc : c₁ = c₂) (hp : p₁ = p₂) :
    mkFinalPrompt c₁ p₁ = mkFinalPrompt c₂ p₂ := by
  rw [hc, hp]

/-- Witness for C7 at concrete equal inputs. -/
theorem finalPrompt_deterministic_witness :
    mkFinalPrompt "X" "Q" = mkFinalPrompt "X" "Q" :=
  finalPrompt_deterministic "X" "X" "Q" "Q" rfl rfl

/-- C3: aggregation drops empty entries (inserting an empty entry anywhere
leaves the result unchanged), joins all-nonempty lists with the blank-line
separator in their original order, and on the spec example
`["content-A", ""]` yields exactly `"content-A"`. -/
theorem aggregate_spec :
    (∀ l₁ l₂ : List String, aggregate (l₁ ++ "" :: l₂) = aggregate (l₁ ++ l₂)) ∧
    (∀ l : List String, (∀ x ∈ l, x ≠ "") →
      aggregate l = String.intercalate "\n\n" l) ∧
    aggregate ["content-A", ""] = "content-A" := by
  refine ⟨fun l₁ l₂ => ?_, fun l h => ?_, by decide⟩
  · simp [aggregate, List.filter_append]
  · have hf : l.filter (fun r => r != "") = l :=
      List.filter_eq_self.mpr (by intro a ha; simpa using h a ha)
    simp [aggregate, hf]

/-- Witness for C3 on an all-nonempty list. -/
theorem aggregate_spec_witness :
    aggregate ["a", "b"] = String.intercalate "\n\n" ["a", "b"] :=
  aggregate_spec.2.1 ["a", "b"] (by decide)

/-! ### Claims about the scrape stage -/

/-- When every scrape call resolves, the stage resolves with the in-order
list of per-URL contributions. -/
theorem scrapeResults_ok (outcome : String → Except Unit (Option String)) :
    ∀ urls : List String, (∀ u ∈ urls, ∃ md, outcome u = Except.ok md) →
      scrapeResults outcome urls =
        Except.ok (urls.map (resolvedContribution outcome)) := by
  intro urls h
  induction urls with
  | nil => rfl
  | cons u rest ih =>
      obtain ⟨md, hmd⟩ := h u (by simp)
      have hrec := ih (fun v hv => h v (by simp [hv]))
      simp [scrapeResults, scrapeOne, hmd, hrec, resolvedContribution,
        Except.map]

/-- If any scrape call throws, the whole stage rejects. -/
theorem scrapeResults_error (outcome : String → Except Unit (Option String)) :
    ∀ (urls : List String) (u : String), u ∈ urls →
      outcome u = Except.error () →
      scrapeResults outcome urls = Except.error () := by
  intro urls
  induction urls with
  | nil =>
      intro u h
      simp at h
  | cons v rest ih =>
      intro u hu herr
      rcases List.mem_cons.mp hu with rfl | hmem
      · simp [scrapeResults, scrapeOne, herr, Except.map]
      · cases hv : scrapeOne outcome v with
        | error e =>
            cases e
            simp [scrapeResults, hv]
        | ok r => simp [scrapeResults, hv, ih u hmem herr]

/-- C1 as amended: a scrape call that resolves with missing or empty content
degrades that URL to an empty contribution and never aborts the stage — when
every call resolves, the stage resolves with the aggregation of the per-URL
contributions; but a scrape call that throws rejects the entire stage. -/
theorem scrapeStage_failure_semantics
    (outcome : String → Except Unit (Option String)) (urls : List String) :
    ((∀ u ∈ urls, ∃ md, outcome u = Except.ok md) →
      scrapeStage outcome urls =
        Except.ok (aggregate (urls.map (resolvedContribution outcome)))) ∧
    (∀ u ∈ urls, outcome u = Except.error () →
      scrapeStage outcome urls = Except.error ()) := by
  constructor
  · intro h
    simp [scrapeStage, scrapeResults_ok outcome urls h, Except.map]
  · intro u hu herr
    simp [scrapeStage, scrapeResults_error outcome urls u hu herr, Except.map]

/-- Witness for the amended C1: one resolved scrape with content. -/
theorem scrapeStage_failure_semantics_witness :
    scrapeStage (fun _ => Except.ok (some "A")) ["https://a.test"] =
      Except.ok "A" :=
  ((scrapeStage_failure_semantics (fun _ => Except.ok (some "A"))
      ["https://a.test"]).1
    (fun u _ => ⟨some "A", rfl⟩)).trans (congrArg Except.ok (by decide))

/-- Counterexample to C1 as stated: with a single URL whose scrape call
throws, the stage does not resolve with the aggregation of the remaining
results (the empty string); it rejects. -/
theorem scrapeStage_throw_aborts :
    scrapeStage (fun _ => Except.error ()) ["https://a.test"] =
      Except.error () ∧
    scrapeStage (fun _ => Except.error ()) ["https://a.test"] ≠
      Except.ok "" :=
  ⟨rfl, fun h => Except.noConfusion h⟩

/-! ### C10: the original prompt survives into the final prompt -/

/-- C10: whenever the pipeline reaches the generation call, the original
prompt is a suffix of the final prompt; and when every scrape resolves with
missing or empty markdown, the final prompt is exactly the original prompt. -/
theorem finalPrompt_keeps_prompt :
    (∀ (outcome : String → Except Unit (Option String)) (p fp : String),
      finalPromptOf outcome p = Except.ok fp → ∃ pre, fp = pre ++ p) ∧
    (∀ (outcome : String → Except Unit (Option String)) (p : String),
      (∀ u, outcome u = Except.ok none ∨ outcome u = Except.ok (some "")) →
      finalPromptOf outcome p = Except.ok p) := by
  constructor
  · intro outcome p fp h
    unfold finalPromptOf at h
    cases hs : scrapeStage outcome (extractUrls p) with
    | error e => rw [hs] at h; exact Except.noConfusion h
    | ok ctx =>
        rw [hs] at h
        simp only [Except.map, Except.ok.injEq] at h
        subst h
        unfold mkFinalPrompt
        by_cases hc : ctx = ""
        · rw [if_pos hc]
          refine ⟨"", ?_⟩
          cases p with
          | mk l => rfl
        · rw [if_neg hc]
          exact ⟨"Context:\n" ++ ctx ++ "\n\nQuestion:\n", rfl⟩
  · intro outcome p h
    have hok : ∀ u ∈ extractUrls p, ∃ md, outcome u = Except.ok md := by
      intro u _
      rcases h u with h1 | h1
      · exact ⟨none, h1⟩
      · exact ⟨some "", h1⟩
    have hcontrib : ∀ u ∈ extractUrls p,
        resolvedContribution outcome u = "" := by
      intro u _
      rcases h u with h1 | h1 <;> simp [resolvedContribution, h1]
    have hagg : aggregate ((extractUrls p).map (resolvedContribution outcome))
        = "" := by
      unfold aggregate
      have hfil : ((extractUrls p).map (resolvedContribution outcome)).filter
          (fun r => r != "") = [] := by
        rw [List.filter_eq_nil_iff]
        intro a ha
        obtain ⟨u, hu, rfl⟩ := List.mem_map.mp ha
        simp [hcontrib u hu]
      rw [hfil]
      rfl
    unfold finalPromptOf scrapeStage
    rw [scrapeResults_ok outcome (extractUrls p) hok]
    simp only [Except.map, Except.ok.injEq]
    rw [hagg]
    simp [mkFinalPrompt]

/-- Witness for C10: every scrape resolves without content, the final prompt
is the original prompt. -/
theorem finalPrompt_keeps_prompt_witness :
    finalPromptOf (fun _ => Except.ok none) "Q" = Except.ok "Q" :=
  finalPrompt_keeps_prompt.2 (fun _ => Except.ok none) "Q"
    (fun _ => Or.inl rfl)

/-! ### C8: orchestration state machine

The handler body runs the three awaited steps strictly in sequence; the
control states correspond to the program points of `demoGenerate`. The
external step outcomes (scrape stage and generation call) are oracle
parameters of the environment. -/

/-- Control states of one pipeline invocation. -/
inductive PipeState where
  | extractingURLs : PipeState
  | scraping : List String → PipeState
  | generating : String → PipeState
  | done : PipeState
  | failed : PipeState

/-- One invocation environment: the trigger prompt and the oracles for the
two external calls. -/
structure PipeEnv where
  prompt : String
  scrapeOutcome : String → Except Unit (Option String)
  genOk : String → Bool

/-- Small-step relation of the handler body: the sequential awaits of
`demoGenerate`. Extraction always succeeds; the scrape stage either resolves
with a context or rejects; the generation call either resolves or fails. -/
inductive PipeStep (env : PipeEnv) : PipeState → PipeState → Prop where
  | extract :
      PipeStep env PipeState.extractingURLs
        (PipeState.scraping (extractUrls env.prompt))
  | scrapeOk (urls : List String) (ctx : String) :
      scrapeStage env.scrapeOutcome urls = Except.ok ctx →
      PipeStep env (PipeState.scraping urls)
        (PipeState.generating (mkFinalPrompt ctx env.prompt))
  | scrapeErr (urls : List String) :
      scrapeStage env.scrapeOutcome urls = Except.error () →
      PipeStep env (PipeState.scraping urls) PipeState.failed
  | genDone (fp : String) :
      env.genOk fp = true →
      PipeStep env (PipeState.generating fp) PipeState.done
  | genErr (fp : String) :
      env.genOk fp = false →
      PipeStep env (PipeState.generating fp) PipeState.failed

/-- Position of a control state in the pipeline order. -/
def stageRank : PipeState → Nat
  | PipeState.extractingURLs => 0
  | PipeState.scraping _ => 1
  | PipeState.generating _ => 2
  | PipeState.done => 3
  | PipeState.failed => 3

/-- C8: from the `generating` state the only transitions are to `done` or to
terminal failure; every step strictly advances the stage order, so along any
execution no state is ever revisited — in particular a failed generation call
never re-runs extraction or scraping. -/
theorem pipeline_no_restart (env : PipeEnv) (fp : String) :
    (∀ s, PipeStep env (PipeState.generating fp) s →
      s = PipeState.done ∨ s = PipeState.failed) ∧
    (∀ s t, PipeStep env s t → stageRank s < stageRank t) ∧
    (∀ s t, Relation.TransGen (PipeStep env) s t → s ≠ t) ∧
    (∀ t, Relation.TransGen (PipeStep env) (PipeState.generating fp) t →
      t = PipeState.done ∨ t = PipeState.failed) := by
  have hrank : ∀ s t, PipeStep env s t → stageRank s < stageRank t := by
    intro s t hst
    cases hst <;> simp [stageRank, extractUrls]
  have htrans : ∀ s t, Relation.TransGen (PipeStep env) s t →
      stageRank s < stageRank t := by
    intro s t h
    induction h with
    | single h => exact hrank _ _ h
    | tail _ h ih => exact Nat.lt_trans ih (hrank _ _ h)
  have hterm : ∀ s, stageRank s = 3 → ∀ t, ¬ PipeStep env s t := by
    intro s h3 t hst
    have := hrank s t hst
    have h4 : stageRank t ≤ 3 := by cases t <;> simp [stageRank]
    omega
  have hgen : ∀ s, PipeStep env (PipeState.generating fp) s →
      s = PipeState.done ∨ s = PipeState.failed := by
    intro s hst
    cases hst
    · exact Or.inl rfl
    · exact Or.inr rfl
  refine ⟨hgen, hrank, fun s t h => ?_, fun t h => ?_⟩
  · intro heq
    subst heq
    exact Nat.lt_irrefl _ (htrans s s h)
  · induction h with
    | single h => exact hgen _ h
    | tail hprev h ih =>
        rcases ih with rfl | rfl
        · exact absurd h (hterm PipeState.done rfl _)
        · exact absurd h (hterm PipeState.failed rfl _)

/-- Witness for C8: from `generating`, a successful generation call steps to
`done`. -/
theorem pipeline_no_restart_witness :
    PipeState.done = PipeState.done ∨ PipeState.done = PipeState.failed :=
  (pipeline_no_restart ⟨"Q", fun _ => Except.ok none, fun _ => true⟩ "Q").1
    PipeState.done (PipeStep.genDone "Q" rfl)

end Polaris
